import Mathlib

/-!
Shallow embedding of `src/oui.rs` (crate `sqlite3-nettools-rs`): the MAC/OUI
prefix codec, the Wireshark-style OUI database text parser, and the
longest-prefix-match search.

Modelling conventions:
* Rust `u64`/`u8`/`usize` values are `Nat`; wherever Rust release-mode
  wrap-around matters (the `i - 1` / `i -= 1` on `usize` in
  `OuiDb::search_entry`), the wrap is written explicitly as `% 2 ^ 64`.
  Debug-only behaviour (`debug_assert!`, the `#[cfg(debug_assertions)]`
  duplicate check, debug overflow panics) is not modelled: the embedding
  follows the optimized build.
* Rust strings are handled as their character lists (`String.data`);
  `str::len` (a byte count) is modelled by summing `Char.utf8Size`.
* Fallible Rust functions return `Except`; functions that can *panic*
  (via `unwrap` or an out-of-bounds slice write) return `RResult`, whose
  `panicked` constructor marks the panic.
* Loops (`binary_search_by_key`, the backward scan in `search_entry`) are
  modelled with an explicit fuel argument large enough that the fuel can
  never be exhausted for any list that fits in a Rust `Vec`
  (`len ≤ usize::MAX < 2 ^ 64`); the fuel-exhausted branch returns the
  value the loop would return on an out-of-bounds index.
-/

/-- Outcome of a Rust computation that can succeed, return an error, or panic. -/
inductive RResult (ε α : Type) where
  | ok (a : α)
  | err (e : ε)
  | panicked
  deriving DecidableEq, Repr

/-- `eui48::MacAddress`: six bytes, i.e. a 48-bit value. -/
structure MacAddress where
  addr : Fin (2 ^ 48)
  deriving DecidableEq, Repr

/-- `ParseMacError` from `oui.rs`. -/
inductive ParseMacError where
  | InvalidLength (s : String)
  | InvalidCharacter (s : String) (c : Char)
  deriving DecidableEq, Repr

/-- The text carried by a `ParseMacError` (either variant). -/
def ParseMacError.text : ParseMacError → String
  | .InvalidLength s => s
  | .InvalidCharacter s _ => s

/-- `ParseOuiError` from `oui.rs`.  The `ParseIntError` payload of
`PrefixLengthParsing` is dropped; the `String` payload (the original input)
is kept. -/
inductive ParseOuiError where
  | MacParsing (e : ParseMacError)
  | PrefixLengthParsing (src : String)
  | PrefixLengthValue (len : Nat) (ctx : String)
  | InvalidIntegerValue (v : Nat)
  deriving DecidableEq, Repr

/-- `struct Oui { address: u64, length: u8 }`. -/
structure Oui where
  address : Nat
  length : Nat
  deriving DecidableEq, Repr

/-- The invariant documented for `Oui`: at most 48 significant bits of
address, prefix length at most 48. -/
def Oui.Valid (o : Oui) : Prop := o.length ≤ 48 ∧ o.address < 2 ^ 48

instance : DecidablePred Oui.Valid := fun o => by unfold Oui.Valid; infer_instance

/-- `Oui::mask`: `((1 << self.length) - 1) << (8 * EUI48LEN - self.length)`
with `EUI48LEN = 6`.  (`Nat` subtraction truncates at zero exactly where the
Rust expression is only ever evaluated with `length ≤ 48`.) -/
def Oui.mask (o : Oui) : Nat := ((1 <<< o.length) - 1) <<< (48 - o.length)

/-- `Oui::contains`. -/
def Oui.contains (a b : Oui) : Bool :=
  if a.length > b.length then false
  else b.address &&& a.mask == a.address

/-- `Oui::from_array`: six bytes, big-endian, length 48. -/
def Oui.from_array (b0 b1 b2 b3 b4 b5 : Fin 256) : Oui :=
  { address := ((((b0.val * 256 + b1.val) * 256 + b2.val) * 256 + b3.val) * 256
        + b4.val) * 256 + b5.val
    length := 48 }

/-- `Oui::from_addr`: `from_array` applied to the six bytes of the MAC, which
recomposes exactly the 48-bit value of the address. -/
def Oui.from_addr (m : MacAddress) : Oui := { address := m.addr.val, length := 48 }

/-- `Oui::as_int`. -/
def Oui.as_int (o : Oui) : Nat := o.address

/-- `Oui::from_int`: rejects values above `0x0000_FFFF_FFFF_FFFF`. -/
def Oui.from_int (address : Nat) : Except ParseOuiError Oui :=
  if address > 0xFFFFFFFFFFFF then .error (.InvalidIntegerValue address)
  else .ok { address := address, length := 48 }

/-- `Oui::as_mac`: bytes 2..8 of the big-endian `u64`, i.e. the low 48 bits. -/
def Oui.as_mac (o : Oui) : MacAddress :=
  ⟨⟨o.address % 2 ^ 48, Nat.mod_lt _ (by norm_num)⟩⟩

/-- `Oui::with_length`. -/
def Oui.with_length (o : Oui) (len : Nat) : Except ParseOuiError Oui :=
  if len > 48 then .error (.PrefixLengthValue len "Oui::set_length")
  else .ok { o with length := len }

/-- The character class accepted as a hex digit by `parse_mac_addr_extend`:
`'A'..='F' | 'a'..='f' | '0'..='9'`. -/
def isHexDigitR (c : Char) : Bool :=
  decide (('A' ≤ c ∧ c ≤ 'F') ∨ ('a' ≤ c ∧ c ≤ 'f') ∨ ('0' ≤ c ∧ c ≤ '9'))

/-- The separator class of `parse_mac_addr_extend`: `'-' | '.' | ':'`. -/
def isSepR (c : Char) : Bool := c == '-' || c == '.' || c == ':'

/-- A character the scan of `parse_mac_addr_extend` steps over without
failing: a hex digit or a separator. -/
def okMacChar (c : Char) : Bool := isHexDigitR c || isSepR c

/-- Number of scan-accepted hex digits in a character list. -/
def hexCount (cs : List Char) : Nat := (cs.filter isHexDigitR).length

/-- The `s.starts_with("0x")` strip at the top of `parse_mac_addr_extend`. -/
def strip0x : List Char → List Char
  | '0' :: 'x' :: rest => rest
  | cs => cs

/-- Numeric value of one hex digit (as `u64::from_str_radix` assigns it). -/
def hexDigitVal (c : Char) : Nat :=
  if '0' ≤ c ∧ c ≤ '9' then c.toNat - 48
  else if 'a' ≤ c ∧ c ≤ 'f' then c.toNat - 87
  else c.toNat - 55

/-- `u64::from_str_radix(_, 16)` on a list of (prevalidated) hex digits. -/
def hexVal (cs : List Char) : Nat := cs.foldl (fun n c => n * 16 + hexDigitVal c) 0

/-- Result of the character scan loop of `parse_mac_addr_extend`. -/
inductive MacScanOut where
  | done (digits : List Char)
  | tooLong
  | badChar (c : Char)
  deriving DecidableEq, Repr

/-- The `for c in s.chars()` loop of `parse_mac_addr_extend`: accumulate hex
digits into a 12-capacity buffer (the capacity check `raw.len() + 1 >
raw.capacity()` precedes the push), skip separators, reject anything else. -/
def macScan : List Char → List Char → MacScanOut
  | acc, [] => .done acc
  | acc, c :: rest =>
    if isHexDigitR c then
      if acc.length + 1 > 12 then .tooLong
      else macScan (acc ++ [c]) rest
    else if isSepR c then macScan acc rest
    else .badChar c

/-- `parse_mac_addr_extend`.  The trailing `Oui::from_int(mac_int).unwrap()`
is modelled faithfully: an out-of-range value would panic (it cannot occur,
since 12 hex digits are below `2 ^ 48`). -/
def parse_mac_addr_extend (s : String) (zero_extend : Bool) :
    RResult ParseMacError MacAddress :=
  let cs := strip0x s.data
  match macScan [] cs with
  | .badChar c => .err (.InvalidCharacter (String.mk cs) c)
  | .tooLong => .err (.InvalidLength (String.mk cs))
  | .done raw =>
    let raw := if zero_extend then raw ++ List.replicate (12 - raw.length) '0' else raw
    if raw.length < 12 then .err (.InvalidLength (String.mk cs))
    else
      match Oui.from_int (hexVal raw) with
      | .error _ => .panicked
      | .ok o => .ok o.as_mac

/-- `parse_mac_addr`. -/
def parse_mac_addr (s : String) : RResult ParseMacError MacAddress :=
  parse_mac_addr_extend s false

/-- `str::split_once('/')`: the text before the first `'/'` and the text
after it, or `none` when there is no `'/'`. -/
def splitSlash (cs : List Char) : Option (List Char × List Char) :=
  if cs.contains '/' then
    some (cs.takeWhile (· ≠ '/'), (cs.dropWhile (· ≠ '/')).tail)
  else none

/-- `slen.parse::<u8>()`: optional leading `'+'`, then one or more decimal
digits, value at most 255. -/
def parseU8 (cs : List Char) : Option Nat :=
  let t := match cs with | '+' :: rest => rest | _ => cs
  if t.isEmpty then none
  else if t.all (fun c => decide ('0' ≤ c ∧ c ≤ '9')) then
    let v := t.foldl (fun n c => n * 10 + (c.toNat - 48)) 0
    if v ≤ 255 then some v else none
  else none

/-- The body of `<Oui as FromStr>::from_str` after the length has been
determined.  The Rust code runs `parse_mac_addr_extend(oui, true).unwrap()`:
a failing MAC portion makes it panic, it never returns
`ParseOuiError::MacParsing`. -/
def Oui.from_str_go (s : String) (oui : List Char) (length : Nat) :
    RResult ParseOuiError Oui :=
  if 24 ≤ length ∧ length ≤ 48 then
    match parse_mac_addr_extend (String.mk oui) true with
    | .err _ => .panicked
    | .panicked => .panicked
    | .ok mac => .ok { address := (Oui.from_addr mac).address, length := length }
  else .err (.PrefixLengthValue length s)

/-- `<Oui as FromStr>::from_str`. -/
def Oui.from_str (s : String) : RResult ParseOuiError Oui :=
  match splitSlash s.data with
  | none => Oui.from_str_go s s.data 24
  | some (oui, slen) =>
    match parseU8 slen with
    | none => .err (.PrefixLengthParsing s)
    | some length => Oui.from_str_go s oui length

/-- `OuiMeta<String>` (the owned variant; the borrowed `OuiMeta<&str>` holds
the same data). -/
structure OuiMeta where
  short : String
  long : Option String
  comment : Option String
  deriving DecidableEq, Repr

/-- `ParseOuiDbError` (the `#[cfg(debug_assertions)]`-only
`DuplicatedEntries` variant is absent in the optimized build modelled
here). -/
inductive ParseOuiDbError where
  | OuiParsing (lnum : Nat) (e : ParseOuiError) (line : String)
  | BadFieldCount (lnum : Nat) (count : Nat) (line : String)
  deriving DecidableEq, Repr

/-- The database: `OuiDb(Vec<(Oui, OuiMeta<String>)>)`. -/
abbrev OuiDb := List (Oui × OuiMeta)

/-- `str::split(sep)` on a character list (an empty input yields one empty
piece, as in Rust). -/
def splitCh (sep : Char) : List Char → List (List Char)
  | [] => [[]]
  | c :: rest =>
    if c = sep then [] :: splitCh sep rest
    else
      match splitCh sep rest with
      | [] => [[c]]
      | f :: fs => (c :: f) :: fs

/-- `str::trim` (whitespace at both ends removed). -/
def trimChars (cs : List Char) : List Char :=
  ((cs.dropWhile Char.isWhitespace).reverse.dropWhile Char.isWhitespace).reverse

/-- `str::trim_matches('#')`: `'#'` characters removed from both ends. -/
def trimHash (cs : List Char) : List Char :=
  ((cs.dropWhile (· = '#')).reverse.dropWhile (· = '#')).reverse

/-- Rust `str::len`: the UTF-8 byte length. -/
def utf8Len (cs : List Char) : Nat := cs.foldl (fun n c => n + c.utf8Size) 0

/-- `l.starts_with('#')` on a character list. -/
def startsWithCh (c : Char) : List Char → Bool
  | [] => false
  | d :: _ => d == c

/-- The field extraction of one data line in `OuiDb::parse_from_string`:
split on tabs, keep only pieces whose **byte length exceeds 1**
(`.filter(|f| f.len() > 1)`), then trim each kept piece. -/
def splitFields (line : List Char) : List (List Char) :=
  ((splitCh '\t' line).filter (fun f => utf8Len f > 1)).map trimChars

/-- One data line of `OuiDb::parse_from_string`.  The kept fields are written
into a stack array `[""; 8]`: a line with more than 8 kept fields panics on
the out-of-bounds write (before the field-count check). -/
def parse_db_line (lnum : Nat) (line : List Char) :
    RResult ParseOuiDbError (Oui × OuiMeta) :=
  let fields := splitFields line
  if fields.length > 8 then .panicked
  else if ¬(2 ≤ fields.length ∧ fields.length ≤ 4) then
    .err (.BadFieldCount lnum fields.length (String.mk line))
  else
    match Oui.from_str (String.mk (fields.getD 0 [])) with
    | .panicked => .panicked
    | .err e => .err (.OuiParsing lnum e (String.mk line))
    | .ok o =>
      .ok (o,
        { short := String.mk (fields.getD 1 [])
          long := (fields[2]?).map String.mk
          comment := (fields[3]?).map (fun f => String.mk (trimChars (trimHash f))) })

/-- Line preprocessing of `OuiDb::parse_from_string`: split on `'\n'`,
enumerate (line numbers count all lines, before filtering), trim, drop blank
lines and lines starting with `'#'`. -/
def db_lines (txt : String) : List (Nat × List Char) :=
  (((splitCh '\n' txt.data).enum.map (fun p => (p.1, trimChars p.2))).filter
    (fun p => !(p.2.isEmpty || startsWithCh '#' p.2)))

/-- The `collect::<Result<Vec<_>, _>>()` over the data lines: stops at the
first error (or panic), in line order. -/
def parse_db_lines : List (Nat × List Char) → RResult ParseOuiDbError OuiDb
  | [] => .ok []
  | (n, l) :: rest =>
    match parse_db_line n l with
    | .panicked => .panicked
    | .err e => .err e
    | .ok entry =>
      match parse_db_lines rest with
      | .panicked => .panicked
      | .err e => .err e
      | .ok v => .ok (entry :: v)

/-- `Oui.lexLt a b`: the strict order of the *derived* `Ord` on `Oui`, which
compares the fields in declaration order: `address`, then `length`. -/
def Oui.lexLt (a b : Oui) : Prop :=
  a.address < b.address ∨ (a.address = b.address ∧ a.length < b.length)

/-- The non-strict order of the derived `Ord` on `Oui`. -/
def Oui.lexLe (a b : Oui) : Prop :=
  a.address < b.address ∨ (a.address = b.address ∧ a.length ≤ b.length)

instance : DecidableRel Oui.lexLt := fun a b => by unfold Oui.lexLt; infer_instance

instance : DecidableRel Oui.lexLe := fun a b => by unfold Oui.lexLe; infer_instance

/-- `Ord::cmp` as derived for `Oui`: lexicographic on `(address, length)`. -/
def Oui.cmp (a b : Oui) : Ordering :=
  if a.address < b.address then .lt
  else if b.address < a.address then .gt
  else if a.length < b.length then .lt
  else if b.length < a.length then .gt
  else .eq

/-- The comparison `sort_by_key(|(k, _v)| *k)` sorts by: the derived order on
the `Oui` key. -/
def OuiDb.entry_le (a b : Oui × OuiMeta) : Prop := Oui.lexLe a.1 b.1

instance : DecidableRel OuiDb.entry_le := fun a b => by
  unfold OuiDb.entry_le; infer_instance

instance : IsTotal (Oui × OuiMeta) OuiDb.entry_le :=
  ⟨by intro a b; unfold OuiDb.entry_le Oui.lexLe; omega⟩

instance : IsTrans (Oui × OuiMeta) OuiDb.entry_le :=
  ⟨by intro a b c; unfold OuiDb.entry_le Oui.lexLe; omega⟩

/-- `OuiDb::parse_from_string`: parse every data line, then sort by the `Oui`
key (`sort_by_key` is a stable sort; a stable sort by a total order is the
same function as `List.insertionSort` by that order).  The
debug-assertions-only duplicate check is absent in the optimized build. -/
def OuiDb.parse_from_string (txt : String) : RResult ParseOuiDbError OuiDb :=
  match parse_db_lines (db_lines txt) with
  | .panicked => .panicked
  | .err e => .err e
  | .ok v => .ok (v.insertionSort OuiDb.entry_le)

/-- Placeholder entry used for the (never taken, in-bounds) slice index of
the binary search. -/
def dflt_entry : Oui × OuiMeta := (⟨0, 0⟩, ⟨"", none, none⟩)

/-- Result of `slice::binary_search_by_key`. -/
inductive BinSearchOut where
  | found (i : Nat)
  | notFound (i : Nat)
  deriving DecidableEq, Repr

/-- The loop of Rust's `slice::binary_search_by`: probe
`mid = left + (right - left) / 2`, narrow to `[mid+1, right)` on `Less`,
`[left, mid)` on `Greater`, return on `Equal`; when the window empties,
report the insertion point `left`.  `fuel ≥ right - left + 1` never runs
out, since the window shrinks strictly each step. -/
def bin_search_go (db : OuiDb) (target : Oui) : Nat → Nat → Nat → BinSearchOut
  | 0, left, _ => .notFound left
  | fuel + 1, left, right =>
    if left < right then
      let mid := left + (right - left) / 2
      match Oui.cmp (db.getD mid dflt_entry).1 target with
      | .lt => bin_search_go db target fuel (mid + 1) right
      | .gt => bin_search_go db target fuel left mid
      | .eq => .found mid
    else .notFound left

/-- `self.0.binary_search_by_key(&as_oui, |(o, _om)| *o)`. -/
def bin_search (db : OuiDb) (target : Oui) : BinSearchOut :=
  bin_search_go db target (db.length + 1) 0 db.length

/-- The backward scan loop of `OuiDb::search_entry`: at index `i`, return the
entry if its prefix contains the target; give up on a non-containing
top-level (`length ≤ 24`) prefix; otherwise `i -= 1` (wrapping on `usize` in
the optimized build, so from `0` the index becomes `2 ^ 64 - 1`, which is out
of bounds for every `Vec` and makes `get` return `None`).  `fuel = 2 ^ 64`
never runs out for a list with `length < 2 ^ 64`. -/
def scan_down (db : OuiDb) (target : Oui) : Nat → Nat → Option (Oui × OuiMeta)
  | _, 0 => none
  | i, fuel + 1 =>
    match db[i]? with
    | none => none
    | some (o, om) =>
      if o.contains target then some (o, om)
      else if !o.contains target && o.length ≤ 24 then none
      else scan_down db target ((i + (2 ^ 64 - 1)) % 2 ^ 64) fuel

/-- `OuiDb::search_entry`. -/
def OuiDb.search_entry (db : OuiDb) (mac : MacAddress) : Option (Oui × OuiMeta) :=
  let as_oui := Oui.from_addr mac
  let base_i :=
    match bin_search db as_oui with
    | .found i => i
    | .notFound i => (i + (2 ^ 64 - 1)) % 2 ^ 64
  scan_down db as_oui base_i (2 ^ 64)

/-- `OuiDb::search`. -/
def OuiDb.search (db : OuiDb) (mac : MacAddress) : Option OuiMeta :=
  (db.search_entry mac).map (fun p => p.2)

/-- `OuiDb::search_prefix` (named `search_pfx` here). -/
def OuiDb.search_pfx (db : OuiDb) (mac : MacAddress) : Option Oui :=
  (db.search_entry mac).map (fun p => p.1)

/-! ### Facts about the derived ordering on `Oui` -/

theorem Oui.cmp_eq_lt {a b : Oui} : Oui.cmp a b = .lt ↔ a.lexLt b := by
  rcases a with ⟨aa, al⟩; rcases b with ⟨ba, bl⟩
  simp only [Oui.cmp, Oui.lexLt]
  split_ifs <;> simp_all <;> omega

theorem Oui.cmp_eq_gt {a b : Oui} : Oui.cmp a b = .gt ↔ b.lexLt a := by
  rcases a with ⟨aa, al⟩; rcases b with ⟨ba, bl⟩
  simp only [Oui.cmp, Oui.lexLt]
  split_ifs <;> simp_all <;> omega

theorem Oui.cmp_eq_eq {a b : Oui} : Oui.cmp a b = .eq ↔ a = b := by
  rcases a with ⟨aa, al⟩; rcases b with ⟨ba, bl⟩
  simp only [Oui.cmp, Oui.mk.injEq]
  split_ifs <;> simp_all <;> omega

/-! ### Facts about masks and containment -/

theorem Oui.testBit_mask {o : Oui} (h : o.length ≤ 48) (i : Nat) :
    o.mask.testBit i = decide (48 - o.length ≤ i ∧ i < 48) := by
  have h1 : (1 <<< o.length) = 2 ^ o.length := by simp [Nat.shiftLeft_eq]
  rw [Oui.mask, h1, Nat.testBit_shiftLeft, Nat.testBit_two_pow_sub_one,
    Bool.eq_iff_iff]
  simp only [Bool.and_eq_true, decide_eq_true_eq]
  omega

theorem Oui.mask_and_mask {a b : Oui} (hl : a.length ≤ b.length) (hb : b.length ≤ 48) :
    a.mask &&& b.mask = a.mask := by
  apply Nat.eq_of_testBit_eq
  intro i
  rw [Nat.testBit_and, Oui.testBit_mask (le_trans hl hb), Oui.testBit_mask hb,
    Bool.eq_iff_iff]
  simp only [Bool.and_eq_true, decide_eq_true_eq]
  omega

theorem Oui.contains_iff {a b : Oui} :
    a.contains b = true ↔ (a.length ≤ b.length ∧ b.address &&& a.mask = a.address) := by
  unfold Oui.contains
  split_ifs with hg
  · simp only [Bool.false_eq_true, false_iff]
    rintro ⟨h1, -⟩
    omega
  · simp only [beq_iff_eq]
    constructor
    · intro h; exact ⟨by omega, h⟩
    · intro h; exact h.2

theorem Oui.contains_addr_le {a b : Oui} (h : a.contains b = true) : a.address ≤ b.address := by
  obtain ⟨-, h2⟩ := Oui.contains_iff.mp h
  calc a.address = b.address &&& a.mask := h2.symm
    _ ≤ b.address := Nat.and_le_left

theorem Oui.contains_addr_mono {a b t : Oui} (hab : a.length ≤ b.length) (hb : b.length ≤ 48)
    (hat : a.contains t = true) (hbt : b.contains t = true) : a.address ≤ b.address := by
  obtain ⟨-, ha2⟩ := Oui.contains_iff.mp hat
  obtain ⟨-, hb2⟩ := Oui.contains_iff.mp hbt
  have key : b.address &&& a.mask = a.address := by
    rw [← hb2, Nat.and_assoc, Nat.and_comm b.mask a.mask, Oui.mask_and_mask hab hb, ha2]
  rw [← key]
  exact Nat.and_le_left

theorem Oui.contains_self48 {addr : Nat} (h : addr < 2 ^ 48) :
    Oui.contains ⟨addr, 48⟩ ⟨addr, 48⟩ = true := by
  rw [Oui.contains_iff]
  refine ⟨le_refl _, ?_⟩
  have hm : Oui.mask ⟨addr, 48⟩ = 2 ^ 48 - 1 := by
    simp [Oui.mask, Nat.shiftLeft_eq]
  rw [hm]
  exact Nat.and_pow_two_sub_one_of_lt_two_pow h

theorem Oui.contains_target_cases {o : Oui} {ta : Nat} (h48 : o.length ≤ 48)
    (hc : o.contains ⟨ta, 48⟩ = true) : o.lexLt ⟨ta, 48⟩ ∨ o = ⟨ta, 48⟩ := by
  have hle := Oui.contains_addr_le hc
  simp only [Oui.lexLt] at *
  rcases o with ⟨oa, ol⟩
  simp only at *
  rcases Nat.lt_or_ge oa ta with h | h
  · exact Or.inl (Or.inl h)
  · rcases Nat.lt_or_ge ol 48 with h2 | h2
    · exact Or.inl (Or.inr ⟨by omega, h2⟩)
    · right
      simp only [Oui.mk.injEq]
      omega

/-! ### Successful prefix parses satisfy the `Oui` invariant -/

theorem Oui.from_str_go_ok {s : String} {oui : List Char} {n : Nat} {o : Oui}
    (h : Oui.from_str_go s oui n = .ok o) :
    o.length = n ∧ 24 ≤ n ∧ n ≤ 48 ∧ o.address < 2 ^ 48 := by
  unfold Oui.from_str_go at h
  split_ifs at h with hr
  · split at h
    · exact absurd h (by simp)
    · exact absurd h (by simp)
    · rename_i mac hmac
      cases h
      exact ⟨rfl, hr.1, hr.2, mac.addr.isLt⟩

theorem Oui.from_str_ok {s : String} {o : Oui}
    (h : Oui.from_str s = .ok o) : o.Valid ∧ 24 ≤ o.length := by
  unfold Oui.from_str at h
  split at h
  · obtain ⟨h1, h2, h3, h4⟩ := Oui.from_str_go_ok h
    exact ⟨⟨by omega, h4⟩, by omega⟩
  · split at h
    · exact absurd h (by simp)
    · obtain ⟨h1, h2, h3, h4⟩ := Oui.from_str_go_ok h
      exact ⟨⟨by omega, h4⟩, by omega⟩

/-- C3 (code bug): for an input whose MAC portion fails to parse (here
`"ZZ"`, whose first character is not a hex digit or separator),
`Oui::from_str` does not return a `ParseOuiError::MacParsing` wrapping the
mac error — the `.unwrap()` on the mac parse result makes it panic.  The
`MacParsing` variant (with its `#[from]` conversion) exists for exactly this
wrapping and is otherwise dead code, so the spec describes the evident
intent and the `.unwrap()` is the slip. -/
theorem C3_from_str_panics_on_bad_mac :
    parse_mac_addr_extend "ZZ" true = .err (.InvalidCharacter "ZZ" 'Z')
    ∧ Oui.from_str "ZZ" = .panicked := by
  constructor
  · decide
  · decide

/-- C5 counterexample: two prefixes with equal `address` and different
`length` do **not** compare as equal under the derived `Ord` used for
sorting and binary search — the derived ordering also compares `length`. -/
theorem C5_cex :
    Oui.cmp ⟨5, 24⟩ ⟨5, 28⟩ = .lt
    ∧ decide (Oui.cmp ⟨5, 24⟩ ⟨5, 28⟩ = .eq) = false := by
  constructor
  · decide
  · decide

/-- C5 (amended): the comparison used for sorting the table and for the
binary search is the *derived* one: lexicographic on `(address, length)` —
`address` is the primary key, but ties on `address` are broken by `length`,
and two prefixes compare equal exactly when both fields agree.  The sort
relation `OuiDb.entry_le` is the non-strict version of the same order on the
`Oui` key. -/
theorem C5_cmp_lexicographic :
    (∀ a b : Oui, a.address < b.address → Oui.cmp a b = .lt)
    ∧ (∀ a b : Oui, b.address < a.address → Oui.cmp a b = .gt)
    ∧ (∀ a b : Oui, a.address = b.address →
        (Oui.cmp a b = .lt ↔ a.length < b.length)
        ∧ (Oui.cmp a b = .gt ↔ b.length < a.length))
    ∧ (∀ a b : Oui, Oui.cmp a b = .eq ↔ a = b)
    ∧ (∀ a b : Oui × OuiMeta, OuiDb.entry_le a b ↔ Oui.lexLe a.1 b.1) := by
  refine ⟨?_, ?_, ?_, ?_, ?_⟩
  · intro a b h
    exact Oui.cmp_eq_lt.mpr (Or.inl h)
  · intro a b h
    exact Oui.cmp_eq_gt.mpr (Or.inl h)
  · intro a b h
    constructor
    · rw [Oui.cmp_eq_lt]
      unfold Oui.lexLt
      omega
    · rw [Oui.cmp_eq_gt]
      unfold Oui.lexLt
      omega
  · intro a b
    exact Oui.cmp_eq_eq
  · intro a b
    exact Iff.rfl

/-- C5 amended-theorem witness at concrete inputs. -/
theorem C5_witness :
    Oui.cmp ⟨3, 40⟩ ⟨7, 24⟩ = .lt ∧ (Oui.cmp ⟨9, 30⟩ ⟨9, 30⟩ = .eq ↔ (⟨9, 30⟩ : Oui) = ⟨9, 30⟩) :=
  ⟨C5_cmp_lexicographic.1 ⟨3, 40⟩ ⟨7, 24⟩ (by norm_num),
   C5_cmp_lexicographic.2.2.2.1 ⟨9, 30⟩ ⟨9, 30⟩⟩

/-- C6 counterexample: when the input starts with the `0x` marker, the
marker is stripped *before* the error values are built, so a failing parse
carries the stripped text (`"GG"`), not the original input (`"0xGG"`). -/
theorem C6_cex :
    parse_mac_addr_extend "0xGG" false = .err (.InvalidCharacter "GG" 'G')
    ∧ decide ((("GG" : String) = "0xGG")) = false := by
  constructor
  · decide
  · decide

/-- C6 (amended): every mac-parse error (either variant, with or without
zero-extend) carries the input *after* any leading `"0x"` marker has been
stripped — exactly `String.mk (strip0x s.data)`. -/
theorem C6_error_text {s : String} {ze : Bool} {e : ParseMacError}
    (h : parse_mac_addr_extend s ze = .err e) :
    e.text = String.mk (strip0x s.data) := by
  simp only [parse_mac_addr_extend] at h
  split at h
  · cases h
    rfl
  · cases h
    rfl
  · rename_i raw heq
    set raw2 := if ze = true then raw ++ List.replicate (12 - raw.length) '0' else raw with hraw2
    split at h
    · cases h
      rfl
    · split at h
      · exact absurd h (by simp)
      · exact absurd h (by simp)

/-- C6 amended-theorem witness at a concrete input. -/
theorem C6_witness :
    ParseMacError.text (.InvalidCharacter "GG" 'G') = String.mk (strip0x "0xGG".data) :=
  C6_error_text (show parse_mac_addr_extend "0xGG" false
    = .err (.InvalidCharacter "GG" 'G') by decide)

/-- C8: the mask of a prefix is `((1 << length) - 1) << (48 - length)`
(equivalently `(2 ^ length - 1) * 2 ^ (48 - length)`); containment holds
exactly when `self.length <= other.length` and
`other.address & self.mask == self.address`; and the prefix parsed from
`"AA:BB:CC/28"` has a mask whose one-bits are exactly the 28 leading bits of
the 48-bit field (bits 20 to 47). -/
theorem C8_mask_and_containment :
    (∀ p : Oui, p.mask = ((1 <<< p.length) - 1) <<< (48 - p.length))
    ∧ (∀ p : Oui, p.length ≤ 48 → p.mask = (2 ^ p.length - 1) * 2 ^ (48 - p.length))
    ∧ (∀ a b : Oui,
        a.contains b = true ↔ (a.length ≤ b.length ∧ b.address &&& a.mask = a.address))
    ∧ Oui.from_str "AA:BB:CC/28" = .ok ⟨0xAABBCC000000, 28⟩
    ∧ (∀ i : Nat, (Oui.mask ⟨0xAABBCC000000, 28⟩).testBit i = true ↔ (20 ≤ i ∧ i < 48)) := by
  refine ⟨fun p => rfl, ?_, fun a b => Oui.contains_iff, by decide, ?_⟩
  · intro p hp
    simp [Oui.mask, Nat.shiftLeft_eq]
  · intro i
    rw [Oui.testBit_mask (by norm_num)]
    simp

/-- C8 witness at a concrete prefix. -/
theorem C8_witness :
    Oui.mask ⟨0, 24⟩ = (2 ^ 24 - 1) * 2 ^ 24 :=
  C8_mask_and_containment.2.1 ⟨0, 24⟩ (by norm_num)

/-- C9: every public constructor yields a prefix satisfying the invariant
(`length ≤ 48`, `address < 2 ^ 48`); `from_int` fails (with
`InvalidIntegerValue`) exactly when the input exceeds the 48-bit range; and
`with_length` fails (with `PrefixLengthValue`) exactly when the requested
length exceeds 48 (the `u64`/`u8` argument ranges appear as hypotheses). -/
theorem C9_constructor_invariants :
    (∀ b0 b1 b2 b3 b4 b5 : Fin 256, (Oui.from_array b0 b1 b2 b3 b4 b5).Valid)
    ∧ (∀ m : MacAddress, (Oui.from_addr m).Valid)
    ∧ (∀ v : Nat, v < 2 ^ 64 →
        (Oui.from_int v = .error (.InvalidIntegerValue v) ↔ 2 ^ 48 ≤ v)
        ∧ (∀ o, Oui.from_int v = .ok o → o.Valid))
    ∧ (∀ (o : Oui) (len : Nat), o.Valid → len < 256 →
        (o.with_length len = .error (.PrefixLengthValue len "Oui::set_length") ↔ 48 < len)
        ∧ (∀ o2, o.with_length len = .ok o2 → o2.Valid))
    ∧ (∀ (s : String) (o : Oui), Oui.from_str s = .ok o → o.Valid) := by
  refine ⟨?_, ?_, ?_, ?_, ?_⟩
  · intro b0 b1 b2 b3 b4 b5
    have h0 := b0.isLt
    have h1 := b1.isLt
    have h2 := b2.isLt
    have h3 := b3.isLt
    have h4 := b4.isLt
    have h5 := b5.isLt
    exact ⟨by norm_num [Oui.from_array], by simp only [Oui.from_array]; omega⟩
  · intro m
    exact ⟨by norm_num [Oui.from_addr], m.addr.isLt⟩
  · intro v hv
    constructor
    · unfold Oui.from_int
      split_ifs with hgt
      · simp only [Except.error.injEq, true_iff]
        omega
      · simp only [reduceCtorEq, false_iff]
        omega
    · intro o ho
      unfold Oui.from_int at ho
      split_ifs at ho with hgt
      · cases ho
        refine ⟨by norm_num, ?_⟩
        show v < 2 ^ 48
        omega
  · intro o len hov hlen
    constructor
    · unfold Oui.with_length
      split_ifs with hgt
      · simp only [Except.error.injEq, true_iff]
        omega
      · constructor
        · intro hc
          exact absurd hc (by simp)
        · omega
    · intro o2 ho2
      unfold Oui.with_length at ho2
      split_ifs at ho2 with hgt
      · cases ho2
        refine ⟨?_, hov.2⟩
        show len ≤ 48
        omega
  · intro s o h
    exact (Oui.from_str_ok h).1

/-- C9 witness at concrete inputs. -/
theorem C9_witness :
    (Oui.from_addr ⟨⟨0x001122334455, by norm_num⟩⟩).Valid
    ∧ (Oui.from_int 5 = .error (.InvalidIntegerValue 5) ↔ 2 ^ 48 ≤ 5)
    ∧ ((Oui.mk 7 24).with_length 32 = .error (.PrefixLengthValue 32 "Oui::set_length") ↔ 48 < 32)
    ∧ Oui.Valid ⟨0xAABBCC000000, 28⟩ :=
  ⟨C9_constructor_invariants.2.1 ⟨⟨0x001122334455, by norm_num⟩⟩,
   (C9_constructor_invariants.2.2.1 5 (by norm_num)).1,
   (C9_constructor_invariants.2.2.2.1 ⟨7, 24⟩ 32 (by decide) (by norm_num)).1,
   C9_constructor_invariants.2.2.2.2 "AA:BB:CC/28" ⟨0xAABBCC000000, 28⟩ (by decide)⟩

/-- C10: containment of prefixes is transitive.  (The middle prefix must
satisfy `length ≤ 48` — the invariant every constructed `Oui` satisfies; no
bound on the outer or inner prefix is needed.) -/
theorem C10_contains_trans {a b c : Oui} (hb : b.length ≤ 48)
    (h1 : a.contains b = true) (h2 : b.contains c = true) : a.contains c = true := by
  obtain ⟨hl1, he1⟩ := Oui.contains_iff.mp h1
  obtain ⟨hl2, he2⟩ := Oui.contains_iff.mp h2
  rw [Oui.contains_iff]
  refine ⟨le_trans hl1 hl2, ?_⟩
  calc c.address &&& a.mask = (c.address &&& b.mask) &&& a.mask := by
        rw [Nat.and_assoc, Nat.and_comm b.mask a.mask, Oui.mask_and_mask hl1 hb]
    _ = b.address &&& a.mask := by rw [he2]
    _ = a.address := he1

/-- C10 witness: a /24 contains a /32 contains a /48. -/
theorem C10_witness :
    Oui.contains ⟨0x001122000000, 24⟩ ⟨0x001122334455, 48⟩ = true :=
  C10_contains_trans (a := ⟨0x001122000000, 24⟩) (b := ⟨0x001122330000, 32⟩)
    (c := ⟨0x001122334455, 48⟩) (by norm_num) (by decide) (by decide)

/-- C4 counterexample: the field filter is `.filter(|f| f.len() > 1)`, which
discards *every* tab-piece of byte length at most 1, wherever it occurs —
not just empty/whitespace-only trailing pieces.  The line `"AA:BB:CC\tX"`
(short-name field a single non-whitespace character) therefore keeps only
one field and is rejected with a bad-field-count error, instead of being
accepted with short name `"X"` as the claim states. -/
theorem C4_cex :
    splitFields "AA:BB:CC\tX".data = ["AA:BB:CC".data]
    ∧ OuiDb.parse_from_string "AA:BB:CC\tX" = .err (.BadFieldCount 0 1 "AA:BB:CC\tX") := by
  constructor
  · decide
  · decide

/-- C4 (amended): the fields of a data line are the tab-separated pieces
whose raw byte length exceeds 1 — pieces of byte length 0 or 1 are discarded
wherever they occur, trailing or not — each kept piece then being trimmed;
the line passes the field-count check exactly when between 2 and 4 such
fields remain (a line with more than 8 such fields panics on the fixed-size
field array instead of erroring), and it parses successfully exactly when
additionally its first field parses as a prefix. -/
theorem C4_field_splitting (lnum : Nat) (line : List Char) :
    splitFields line = ((splitCh '\t' line).filter (fun f => utf8Len f > 1)).map trimChars
    ∧ (parse_db_line lnum line
        = .err (.BadFieldCount lnum (splitFields line).length (String.mk line))
       ↔ ((splitFields line).length ≤ 8
          ∧ ¬(2 ≤ (splitFields line).length ∧ (splitFields line).length ≤ 4)))
    ∧ ((∃ e, parse_db_line lnum line = .ok e)
       ↔ (2 ≤ (splitFields line).length ∧ (splitFields line).length ≤ 4
          ∧ ∃ o, Oui.from_str (String.mk ((splitFields line).getD 0 [])) = .ok o)) := by
  refine ⟨rfl, ?_, ?_⟩
  · simp only [parse_db_line]
    by_cases h8 : (splitFields line).length > 8
    · rw [if_pos h8]
      simp only [reduceCtorEq, false_iff]
      omega
    · rw [if_neg h8]
      by_cases h24 : 2 ≤ (splitFields line).length ∧ (splitFields line).length ≤ 4
      · rw [if_neg (not_not_intro h24)]
        cases hfs : Oui.from_str (String.mk ((splitFields line).getD 0 [])) <;>
          simp only [hfs, RResult.err.injEq, reduceCtorEq, false_iff] <;>
          exact fun hr => hr.2 h24
      · rw [if_pos h24]
        constructor
        · intro _
          exact ⟨by omega, h24⟩
        · intro _
          rfl
  · simp only [parse_db_line]
    by_cases h8 : (splitFields line).length > 8
    · rw [if_pos h8]
      constructor
      · rintro ⟨e, he⟩
        exact absurd he (by simp)
      · rintro ⟨h1, h2, -⟩
        omega
    · rw [if_neg h8]
      by_cases h24 : 2 ≤ (splitFields line).length ∧ (splitFields line).length ≤ 4
      · rw [if_neg (not_not_intro h24)]
        cases hfs : Oui.from_str (String.mk ((splitFields line).getD 0 [])) with
        | ok o =>
          simp only [hfs]
          constructor
          · intro _
            exact ⟨h24.1, h24.2, o, rfl⟩
          · intro _
            exact ⟨_, rfl⟩
        | err e =>
          simp only [hfs, reduceCtorEq]
          constructor
          · rintro ⟨e2, he2⟩
            exact he2.elim
          · rintro ⟨-, -, o, ho⟩
            exact ho.elim
        | panicked =>
          simp only [hfs, reduceCtorEq]
          constructor
          · rintro ⟨e2, he2⟩
            exact he2.elim
          · rintro ⟨-, -, o, ho⟩
            exact ho.elim
      · rw [if_pos h24]
        constructor
        · rintro ⟨e, he⟩
          exact absurd he (by simp)
        · rintro ⟨h1, h2, -⟩
          exact (h24 ⟨h1, h2⟩).elim

/-- C4 amended-theorem witness: a valid three-field line. -/
theorem C4_witness :
    (∃ e, parse_db_line 0 "00:11:22\tAcme\tAcme Corp".data = .ok e)
    ↔ (2 ≤ (splitFields "00:11:22\tAcme\tAcme Corp".data).length
       ∧ (splitFields "00:11:22\tAcme\tAcme Corp".data).length ≤ 4
       ∧ ∃ o, Oui.from_str
           (String.mk ((splitFields "00:11:22\tAcme\tAcme Corp".data).getD 0 [])) = .ok o) :=
  (C4_field_splitting 0 "00:11:22\tAcme\tAcme Corp".data).2.2

/-! ### Characterizing the scan of `parse_mac_addr_extend` -/

theorem takeWhile_eq_self_of_all {p : Char → Bool} {l : List Char} (h : l.all p = true) :
    l.takeWhile p = l := by
  induction l with
  | nil => rfl
  | cons c rest ih =>
    simp only [List.all_cons, Bool.and_eq_true] at h
    rw [List.takeWhile_cons_of_pos h.1, ih h.2]

theorem macScan_tooLong (cs : List Char) : ∀ acc, acc.length ≤ 12 →
    13 ≤ acc.length + hexCount (cs.takeWhile okMacChar) → macScan acc cs = .tooLong := by
  induction cs with
  | nil =>
    intro acc h1 h2
    simp only [List.takeWhile_nil, hexCount, List.filter_nil, List.length_nil] at h2
    omega
  | cons c rest ih =>
    intro acc h1 h2
    by_cases hc : isHexDigitR c = true
    · have hok : okMacChar c = true := by simp [okMacChar, hc]
      rw [List.takeWhile_cons_of_pos hok] at h2
      by_cases hfull : acc.length + 1 > 12
      · simp [macScan, hc, hfull]
      · rw [show macScan acc (c :: rest) = macScan (acc ++ [c]) rest from by
          simp [macScan, hc, hfull]]
        apply ih (acc ++ [c])
          (by simp only [List.length_append, List.length_cons, List.length_nil]; omega)
        have hcnt : hexCount (c :: rest.takeWhile okMacChar)
            = hexCount (rest.takeWhile okMacChar) + 1 := by
          simp [hexCount, List.filter_cons, hc]
        rw [hcnt] at h2
        simp only [List.length_append, List.length_cons, List.length_nil]
        omega
    · by_cases hs : isSepR c = true
      · have hok : okMacChar c = true := by simp [okMacChar, hs]
        rw [List.takeWhile_cons_of_pos hok] at h2
        rw [show macScan acc (c :: rest) = macScan acc rest from by simp [macScan, hc, hs]]
        apply ih acc h1
        simp only [hexCount, List.filter_cons, hc] at h2 ⊢
        simpa using h2
      · have hok : okMacChar c = false := by simp [okMacChar, hc, hs]
        rw [List.takeWhile_cons_of_neg (by simp [hok])] at h2
        simp only [hexCount, List.filter_nil, List.length_nil] at h2
        omega

theorem macScan_done (cs : List Char) : ∀ acc, acc.length + hexCount cs ≤ 12 →
    cs.all okMacChar = true → macScan acc cs = .done (acc ++ cs.filter isHexDigitR) := by
  induction cs with
  | nil =>
    intro acc h1 h2
    simp [macScan]
  | cons c rest ih =>
    intro acc h1 h2
    simp only [List.all_cons, Bool.and_eq_true] at h2
    by_cases hc : isHexDigitR c = true
    · have hcnt : hexCount (c :: rest) = hexCount rest + 1 := by
        simp [hexCount, List.filter_cons, hc]
      rw [show macScan acc (c :: rest) = macScan (acc ++ [c]) rest from by
        simp [macScan, hc]
        omega]
      rw [ih (acc ++ [c]) (by simp only [List.length_append, List.length_cons, List.length_nil]; omega) h2.2]
      simp [List.filter_cons, hc]
    · have hsep : isSepR c = true := by
        have := h2.1
        simp only [okMacChar, Bool.or_eq_true, hc, Bool.false_eq_true, false_or] at this
        exact this
      have hcnt : hexCount (c :: rest) = hexCount rest := by
        simp [hexCount, List.filter_cons, hc]
      rw [show macScan acc (c :: rest) = macScan acc rest from by simp [macScan, hc, hsep]]
      rw [ih acc (by omega) h2.2]
      simp [List.filter_cons, hc]

theorem macScan_badChar (cs : List Char) : ∀ acc, acc.length ≤ 12 →
    acc.length + hexCount (cs.takeWhile okMacChar) ≤ 12 → cs.all okMacChar = false →
    ∃ c, okMacChar c = false ∧ macScan acc cs = .badChar c := by
  induction cs with
  | nil =>
    intro acc h1 h2 h3
    exact absurd h3 (by simp)
  | cons c rest ih =>
    intro acc h1 h2 h3
    by_cases hok : okMacChar c = true
    · simp only [List.all_cons, hok, Bool.true_and] at h3
      rw [List.takeWhile_cons_of_pos hok] at h2
      by_cases hc : isHexDigitR c = true
      · have hcnt : hexCount (c :: rest.takeWhile okMacChar)
            = hexCount (rest.takeWhile okMacChar) + 1 := by
          simp [hexCount, List.filter_cons, hc]
        rw [hcnt] at h2
        have hstep : macScan acc (c :: rest) = macScan (acc ++ [c]) rest := by
          simp [macScan, hc]
          omega
        rw [hstep]
        apply ih (acc ++ [c])
          (by simp only [List.length_append, List.length_cons, List.length_nil]; omega)
          (by simp only [List.length_append, List.length_cons, List.length_nil]; omega)
          h3
      · have hs : isSepR c = true := by
          simp only [okMacChar, Bool.or_eq_true, hc, Bool.false_eq_true, false_or] at hok
          exact hok
        rw [show macScan acc (c :: rest) = macScan acc rest from by simp [macScan, hc, hs]]
        apply ih acc h1 ?_ h3
        simp only [hexCount, List.filter_cons, hc] at h2
        simpa using h2
    · have hok2 : okMacChar c = false := by simpa using hok
      have hc : isHexDigitR c = false := by
        simp only [okMacChar, Bool.or_eq_false_iff] at hok2
        exact hok2.1
      have hs : isSepR c = false := by
        simp only [okMacChar, Bool.or_eq_false_iff] at hok2
        exact hok2.2
      exact ⟨c, hok2, by simp [macScan, hc, hs]⟩

theorem parse_mac_of_tooLong {s : String} {ze : Bool}
    (hm : macScan [] (strip0x s.data) = .tooLong) :
    parse_mac_addr_extend s ze = .err (.InvalidLength (String.mk (strip0x s.data))) := by
  simp only [parse_mac_addr_extend, hm]

theorem parse_mac_of_badChar {s : String} {ze : Bool} {c : Char}
    (hm : macScan [] (strip0x s.data) = .badChar c) :
    parse_mac_addr_extend s ze = .err (.InvalidCharacter (String.mk (strip0x s.data)) c) := by
  simp only [parse_mac_addr_extend, hm]

theorem parse_mac_of_done {s : String} {ze : Bool} {raw : List Char}
    (hm : macScan [] (strip0x s.data) = .done raw) (hlen : raw.length ≤ 12) :
    (parse_mac_addr_extend s ze = .err (.InvalidLength (String.mk (strip0x s.data)))
     ↔ (raw.length < 12 ∧ ze = false)) := by
  simp only [parse_mac_addr_extend, hm]
  cases ze with
  | true =>
    rw [show (if (true : Bool) = true then raw ++ List.replicate (12 - raw.length) '0' else raw)
        = raw ++ List.replicate (12 - raw.length) '0' from rfl]
    have hpad : (raw ++ List.replicate (12 - raw.length) '0').length = 12 := by
      simp only [List.length_append, List.length_replicate]
      omega
    rw [hpad, if_neg (by omega)]
    cases hfi : Oui.from_int (hexVal (raw ++ List.replicate (12 - raw.length) '0')) <;>
      simp [hfi]
  | false =>
    rw [show (if (false : Bool) = true then raw ++ List.replicate (12 - raw.length) '0' else raw)
        = raw from rfl]
    by_cases hl : raw.length < 12
    · rw [if_pos hl]
      simp [hl]
    · rw [if_neg hl]
      cases hfi : Oui.from_int (hexVal raw) <;> simp [hfi, hl]

/-- C7 counterexample: the input `"Z0000000000000"` has 13 hex digits (more
than 12), but parsing fails with an invalid-*character* error at the leading
`'Z'`, not with the invalid-length error the claim requires for every input
with more than 12 digits — the character scan rejects the first bad
character before the digit-capacity check can be reached. -/
theorem C7_cex :
    parse_mac_addr "Z0000000000000" = .err (.InvalidCharacter "Z0000000000000" 'Z')
    ∧ 12 < hexCount "Z0000000000000".data
    ∧ decide (parse_mac_addr "Z0000000000000"
        = .err (.InvalidLength "Z0000000000000")) = false := by
  refine ⟨by decide, by decide, by decide⟩

/-- C7 (amended): MAC parsing fails with an invalid-length error exactly
when the 13th hex digit is reached *before any invalid character* (so the
digit count of the prefix of hex digits and separators reaches 13 — the
capacity check fires at the 13th digit, before scanning further), or when
the whole input is scanned (hex digits and separators only), fewer than 12
digits were collected, and zero-extend is disabled; with zero-extend
enabled, a short input is right-padded with `'0'` and never fails with
invalid length. -/
theorem C7_invalid_length_iff (s : String) (ze : Bool) :
    parse_mac_addr_extend s ze = .err (.InvalidLength (String.mk (strip0x s.data)))
    ↔ (13 ≤ hexCount ((strip0x s.data).takeWhile okMacChar)
        ∨ ((strip0x s.data).all okMacChar = true
           ∧ hexCount (strip0x s.data) < 12 ∧ ze = false)) := by
  by_cases h13 : 13 ≤ hexCount ((strip0x s.data).takeWhile okMacChar)
  · have hm := macScan_tooLong (strip0x s.data) []
      (by simp) (by simpa using h13)
    exact iff_of_true (parse_mac_of_tooLong hm) (Or.inl h13)
  · by_cases hall : (strip0x s.data).all okMacChar = true
    · have htw : (strip0x s.data).takeWhile okMacChar = strip0x s.data :=
        takeWhile_eq_self_of_all hall
      have hcnt : hexCount (strip0x s.data) ≤ 12 := by
        rw [← htw]
        omega
      have hdone := macScan_done (strip0x s.data) [] (by simpa using hcnt) hall
      rw [List.nil_append] at hdone
      have hlen : ((strip0x s.data).filter isHexDigitR).length ≤ 12 := hcnt
      rw [parse_mac_of_done hdone hlen]
      constructor
      · rintro ⟨h1, h2⟩
        exact Or.inr ⟨hall, h1, h2⟩
      · rintro (h | ⟨-, h1, h2⟩)
        · exact absurd h h13
        · exact ⟨h1, h2⟩
    · obtain ⟨c, hcok, hmc⟩ := macScan_badChar (strip0x s.data) []
        (by simp) (by simp only [List.length_nil]; omega) (by simpa using hall)
      apply iff_of_false
      · rw [parse_mac_of_badChar hmc]
        simp
      · rintro (h | ⟨h2, -⟩)
        · exact h13 h
        · exact hall h2

/-! ### Correctness of the binary search and the backward scan -/

theorem sorted_key_le {db : OuiDb} (hs : List.Pairwise OuiDb.entry_le db) {i j : Nat}
    {ei ej : Oui × OuiMeta} (hij : i < j) (hi : db[i]? = some ei) (hj : db[j]? = some ej) :
    Oui.lexLe ei.1 ej.1 := by
  rw [List.getElem?_eq_some_iff] at hi hj
  obtain ⟨hi1, hi2⟩ := hi
  obtain ⟨hj1, hj2⟩ := hj
  have := List.pairwise_iff_getElem.mp hs i j hi1 hj1 hij
  rw [hi2, hj2] at this
  exact this

theorem bin_search_go_spec {db : OuiDb} {t : Oui}
    (hs : List.Pairwise OuiDb.entry_le db) :
    ∀ (fuel left right : Nat), right ≤ db.length → left ≤ right → right - left < fuel →
      (∀ j, j < left → ∀ e, db[j]? = some e → Oui.lexLt e.1 t) →
      (∀ j, right ≤ j → ∀ e, db[j]? = some e → Oui.lexLt t e.1) →
      (match bin_search_go db t fuel left right with
       | .found i => ∃ om, db[i]? = some (t, om)
       | .notFound i =>
           left ≤ i ∧ i ≤ right
           ∧ (∀ j, j < i → ∀ e, db[j]? = some e → Oui.lexLt e.1 t)
           ∧ (∀ j, i ≤ j → ∀ e, db[j]? = some e → Oui.lexLt t e.1)) := by
  intro fuel
  induction fuel with
  | zero =>
    intro left right h1 h2 h3 h4 h5
    omega
  | succ fuel ih =>
    intro left right hr hlr hfuel hlo hhi
    rw [bin_search_go]
    by_cases hlt : left < right
    · rw [if_pos hlt]
      have hmidlt : left + (right - left) / 2 < right := by omega
      have hmidge : left ≤ left + (right - left) / 2 := by omega
      have hmidlen : left + (right - left) / 2 < db.length := by omega
      have hgetd : db.getD (left + (right - left) / 2) dflt_entry
          = db[left + (right - left) / 2] := by
        rw [List.getD_eq_getElem?_getD, List.getElem?_eq_getElem hmidlen]
        rfl
      have hmidsome : db[left + (right - left) / 2]?
          = some (db[left + (right - left) / 2]) :=
        List.getElem?_eq_getElem hmidlen
      cases hcmp : Oui.cmp (db.getD (left + (right - left) / 2) dflt_entry).1 t with
      | lt =>
        simp only [hcmp]
        have hkey : Oui.lexLt (db[left + (right - left) / 2]).1 t := by
          rw [hgetd] at hcmp
          exact Oui.cmp_eq_lt.mp hcmp
        have hlo2 : ∀ j, j < left + (right - left) / 2 + 1 → ∀ e, db[j]? = some e →
            Oui.lexLt e.1 t := by
          intro j hj e he
          rcases Nat.lt_or_ge j left with hj2 | hj2
          · exact hlo j hj2 e he
          · rcases Nat.eq_or_lt_of_le (by omega : j ≤ left + (right - left) / 2) with heq | hjlt
            · subst heq
              rw [hmidsome] at he
              injection he with he2
              rw [he2] at hkey
              exact hkey
            · have hle := sorted_key_le hs hjlt he hmidsome
              unfold Oui.lexLe at hle
              unfold Oui.lexLt at hkey ⊢
              omega
        have hb1 : left + (right - left) / 2 + 1 ≤ right := by omega
        have hb2 : right - (left + (right - left) / 2 + 1) < fuel := by omega
        have hrec := ih (left + (right - left) / 2 + 1) right hr hb1 hb2 hlo2 hhi
        cases hres : bin_search_go db t fuel (left + (right - left) / 2 + 1) right with
        | found i =>
          rw [hres] at hrec
          exact hrec
        | notFound i =>
          rw [hres] at hrec
          obtain ⟨ha, hb4, hc4, hd4⟩ := hrec
          exact ⟨by omega, hb4, hc4, hd4⟩
      | gt =>
        simp only [hcmp]
        have hkey : Oui.lexLt t (db[left + (right - left) / 2]).1 := by
          rw [hgetd] at hcmp
          exact Oui.cmp_eq_gt.mp hcmp
        have hhi2 : ∀ j, left + (right - left) / 2 ≤ j → ∀ e, db[j]? = some e →
            Oui.lexLt t e.1 := by
          intro j hj e he
          rcases Nat.lt_or_ge j right with hj2 | hj2
          · rcases Nat.eq_or_lt_of_le hj with heq | hjlt
            · rw [← heq, hmidsome] at he
              injection he with he2
              rw [he2] at hkey
              exact hkey
            · have hle := sorted_key_le hs hjlt hmidsome he
              unfold Oui.lexLe at hle
              unfold Oui.lexLt at hkey ⊢
              omega
          · exact hhi j hj2 e he
        have hb1 : left + (right - left) / 2 ≤ db.length := by omega
        have hb2 : left ≤ left + (right - left) / 2 := by omega
        have hb3 : left + (right - left) / 2 - left < fuel := by omega
        have hrec := ih left (left + (right - left) / 2) hb1 hb2 hb3 hlo hhi2
        cases hres : bin_search_go db t fuel left (left + (right - left) / 2) with
        | found i =>
          rw [hres] at hrec
          exact hrec
        | notFound i =>
          rw [hres] at hrec
          obtain ⟨ha, hb4, hc4, hd4⟩ := hrec
          exact ⟨ha, by omega, hc4, hd4⟩
      | eq =>
        simp only [hcmp]
        have hkey : (db[left + (right - left) / 2]).1 = t := by
          rw [hgetd] at hcmp
          exact Oui.cmp_eq_eq.mp hcmp
        refine ⟨(db[left + (right - left) / 2]).2, ?_⟩
        rw [hmidsome, ← hkey]
    · rw [if_neg hlt]
      exact ⟨le_refl _, by omega, hlo, fun j hj e he => hhi j (by omega) e he⟩

theorem bin_search_spec {db : OuiDb} {t : Oui} (hs : List.Pairwise OuiDb.entry_le db) :
    (match bin_search db t with
     | .found i => ∃ om, db[i]? = some (t, om)
     | .notFound i =>
         i ≤ db.length
         ∧ (∀ j, j < i → ∀ e, db[j]? = some e → Oui.lexLt e.1 t)
         ∧ (∀ j, i ≤ j → ∀ e, db[j]? = some e → Oui.lexLt t e.1)) := by
  have hmain := bin_search_go_spec (t := t) hs (db.length + 1) 0 db.length (le_refl _) (by omega)
    (by omega)
    (by intro j hj e he; omega)
    (by intro j hj e he
        have hn : db[j]? = none := List.getElem?_eq_none_iff.mpr hj
        rw [hn] at he
        exact absurd he (by simp))
  unfold bin_search
  cases hb : bin_search_go db t (db.length + 1) 0 db.length with
  | found i =>
    rw [hb] at hmain
    exact hmain
  | notFound i =>
    rw [hb] at hmain
    exact ⟨hmain.2.1, hmain.2.2.1, hmain.2.2.2⟩

theorem pow64_succ : (2 : Nat) ^ 64 = (2 ^ 64 - 1) + 1 := by norm_num

theorem scan_down_succ (db : OuiDb) (t : Oui) (i fuel : Nat) :
    scan_down db t i (fuel + 1)
    = match db[i]? with
      | none => none
      | some (o, om) =>
        if o.contains t then some (o, om)
        else if !o.contains t && o.length ≤ 24 then none
        else scan_down db t ((i + (2 ^ 64 - 1)) % 2 ^ 64) fuel := rfl

theorem scan_down_oob {db : OuiDb} {t : Oui} {i fuel : Nat} (h : db.length ≤ i) :
    scan_down db t i (fuel + 1) = none := by
  rw [scan_down_succ, List.getElem?_eq_none_iff.mpr h]

theorem scan_down_some_spec {db : OuiDb} {t : Oui} (hlen : db.length < 2 ^ 64) :
    ∀ (i : Nat), i < 2 ^ 64 → ∀ (fuel : Nat), i + 2 ≤ fuel → ∀ e,
      scan_down db t i fuel = some e →
      ∃ k, k ≤ i ∧ db[k]? = some e ∧ e.1.contains t = true ∧
        (∀ k2, k < k2 → k2 ≤ i → ∀ e2, db[k2]? = some e2 → e2.1.contains t = false) := by
  intro i
  induction i with
  | zero =>
    intro hi fuel hfuel e hscan
    obtain ⟨f, rfl⟩ : ∃ f, fuel = f + 1 := ⟨fuel - 1, by omega⟩
    rw [scan_down_succ] at hscan
    cases hget : db[0]? with
    | none =>
      rw [hget] at hscan
      exact absurd hscan (by simp)
    | some e0 =>
      obtain ⟨o, om⟩ := e0
      simp only [hget] at hscan
      by_cases hc : o.contains t = true
      · rw [if_pos hc] at hscan
        injection hscan with he
        refine ⟨0, le_refl _, ?_, ?_, ?_⟩
        · rw [hget, he]
        · rw [← he]
          exact hc
        · intro k2 h1 h2 e2 _
          omega
      · rw [if_neg hc] at hscan
        by_cases h24 : o.length ≤ 24
        · rw [if_pos (by simp [Bool.eq_false_iff.mpr hc, h24])] at hscan
          exact absurd hscan (by simp)
        · rw [if_neg (by simp [Bool.eq_false_iff.mpr hc, h24])] at hscan
          obtain ⟨f2, rfl⟩ : ∃ f2, f = f2 + 1 := ⟨f - 1, by omega⟩
          rw [show (0 + (2 ^ 64 - 1)) % 2 ^ 64 = 2 ^ 64 - 1 from by
              rw [Nat.zero_add]; exact Nat.mod_eq_of_lt (by omega)] at hscan
          rw [scan_down_oob (by omega)] at hscan
          exact absurd hscan (by simp)
  | succ i ihi =>
    intro hi fuel hfuel e hscan
    obtain ⟨f, rfl⟩ : ∃ f, fuel = f + 1 := ⟨fuel - 1, by omega⟩
    rw [scan_down_succ] at hscan
    cases hget : db[i + 1]? with
    | none =>
      rw [hget] at hscan
      exact absurd hscan (by simp)
    | some e0 =>
      obtain ⟨o, om⟩ := e0
      simp only [hget] at hscan
      by_cases hc : o.contains t = true
      · rw [if_pos hc] at hscan
        injection hscan with he
        refine ⟨i + 1, le_refl _, ?_, ?_, ?_⟩
        · rw [hget, he]
        · rw [← he]
          exact hc
        · intro k2 h1 h2 e2 _
          omega
      · rw [if_neg hc] at hscan
        by_cases h24 : o.length ≤ 24
        · rw [if_pos (by simp [Bool.eq_false_iff.mpr hc, h24])] at hscan
          exact absurd hscan (by simp)
        · rw [if_neg (by simp [Bool.eq_false_iff.mpr hc, h24])] at hscan
          rw [show (i + 1 + (2 ^ 64 - 1)) % 2 ^ 64 = i from by
              rw [show i + 1 + (2 ^ 64 - 1) = i + 2 ^ 64 from by omega, Nat.add_mod_right]
              exact Nat.mod_eq_of_lt (by omega)] at hscan
          obtain ⟨k, hk1, hk2, hk3, hk4⟩ := ihi (by omega) f (by omega) e hscan
          refine ⟨k, by omega, hk2, hk3, ?_⟩
          intro k2 hgt hle e2 hget2
          rcases Nat.lt_or_ge k2 (i + 1) with hlt2 | hge2
          · exact hk4 k2 hgt (by omega) e2 hget2
          · have hk2eq : k2 = i + 1 := by omega
            subst hk2eq
            rw [hget] at hget2
            injection hget2 with he2
            rw [← he2]
            exact Bool.eq_false_iff.mpr hc

theorem search_entry_found {db : OuiDb} {m : MacAddress} {i : Nat}
    (h : bin_search db (Oui.from_addr m) = .found i) :
    OuiDb.search_entry db m = scan_down db (Oui.from_addr m) i (2 ^ 64) := by
  unfold OuiDb.search_entry
  simp only [h]

theorem search_entry_notFound {db : OuiDb} {m : MacAddress} {i : Nat}
    (h : bin_search db (Oui.from_addr m) = .notFound i) :
    OuiDb.search_entry db m
      = scan_down db (Oui.from_addr m) ((i + (2 ^ 64 - 1)) % 2 ^ 64) (2 ^ 64) := by
  unfold OuiDb.search_entry
  simp only [h]

/-! ### The parsed database is sorted and its entries satisfy the invariant -/

theorem parse_db_line_ok_valid {n : Nat} {l : List Char} {e : Oui × OuiMeta}
    (h : parse_db_line n l = .ok e) : e.1.Valid := by
  simp only [parse_db_line] at h
  split_ifs at h
  cases hfs : Oui.from_str (String.mk ((splitFields l).getD 0 [])) <;> rw [hfs] at h
  · injection h with h2
    rw [← h2]
    exact (Oui.from_str_ok hfs).1
  · exact absurd h (by simp)
  · exact absurd h (by simp)

theorem parse_db_lines_mem {ls : List (Nat × List Char)} :
    ∀ {v : OuiDb}, parse_db_lines ls = .ok v →
      ∀ e ∈ v, ∃ p : Nat × List Char, parse_db_line p.1 p.2 = .ok e := by
  induction ls with
  | nil =>
    intro v h e he
    injection h with h2
    rw [← h2] at he
    exact absurd he (by simp)
  | cons p rest ih =>
    intro v h e he
    obtain ⟨n, l⟩ := p
    simp only [parse_db_lines] at h
    cases h1 : parse_db_line n l <;> rw [h1] at h
    · cases h2 : parse_db_lines rest <;> rw [h2] at h
      · injection h with h3
        rw [← h3] at he
        rcases List.mem_cons.mp he with rfl | hmem
        · exact ⟨(n, l), h1⟩
        · exact ih h2 e hmem
      · exact absurd h (by simp)
      · exact absurd h (by simp)
    · exact absurd h (by simp)
    · exact absurd h (by simp)

theorem parse_ok_sorted {txt : String} {db : OuiDb}
    (h : OuiDb.parse_from_string txt = .ok db) : List.Pairwise OuiDb.entry_le db := by
  unfold OuiDb.parse_from_string at h
  cases hpl : parse_db_lines (db_lines txt) <;> rw [hpl] at h
  · injection h with h2
    rw [← h2]
    exact List.sorted_insertionSort OuiDb.entry_le _
  · exact absurd h (by simp)
  · exact absurd h (by simp)

theorem parse_ok_valid {txt : String} {db : OuiDb}
    (h : OuiDb.parse_from_string txt = .ok db) : ∀ e ∈ db, e.1.Valid := by
  unfold OuiDb.parse_from_string at h
  cases hpl : parse_db_lines (db_lines txt) <;> rw [hpl] at h
  · injection h with h2
    intro e he
    rw [← h2] at he
    rw [List.mem_insertionSort] at he
    obtain ⟨p, hp⟩ := parse_db_lines_mem hpl e he
    exact parse_db_line_ok_valid hp
  · exact absurd h (by simp)
  · exact absurd h (by simp)

/-- The central correctness fact for `OuiDb::search_entry` on a sorted table
of valid prefixes: a returned entry is in the table, its prefix contains the
queried address, and no containing prefix in the table is strictly more
specific. -/
theorem search_entry_spec {db : OuiDb} {m : MacAddress} {o : Oui} {om : OuiMeta}
    (hsort : List.Pairwise OuiDb.entry_le db)
    (hvalid : ∀ e ∈ db, e.1.Valid)
    (hlen : db.length < 2 ^ 64)
    (hs : OuiDb.search_entry db m = some (o, om)) :
    (o, om) ∈ db ∧ o.contains (Oui.from_addr m) = true
    ∧ ∀ o2 om2, (o2, om2) ∈ db → o2.contains (Oui.from_addr m) = true →
        o2.length ≤ o.length := by
  have htt : Oui.from_addr m = ⟨m.addr.val, 48⟩ := rfl
  have hbs := bin_search_spec (t := Oui.from_addr m) hsort
  cases hb : bin_search db (Oui.from_addr m) with
  | found i =>
    rw [hb] at hbs
    obtain ⟨om0, hi⟩ := hbs
    rw [search_entry_found hb, pow64_succ, scan_down_succ] at hs
    simp only [hi] at hs
    have hct : (Oui.from_addr m).contains (Oui.from_addr m) = true := by
      rw [htt]
      exact Oui.contains_self48 m.addr.isLt
    rw [if_pos hct] at hs
    injection hs with hs2
    rw [Prod.mk.injEq] at hs2
    obtain ⟨rfl, rfl⟩ := hs2
    refine ⟨List.getElem?_mem hi, hct, ?_⟩
    intro o2 om2 hm2 hc2
    have h48 := (hvalid _ hm2).1
    rw [htt]
    exact h48
  | notFound i =>
    rw [hb] at hbs
    obtain ⟨hile, hlo, hhi⟩ := hbs
    rw [search_entry_notFound hb] at hs
    rcases Nat.eq_zero_or_pos i with rfl | hipos
    · rw [show (0 + (2 ^ 64 - 1)) % 2 ^ 64 = 2 ^ 64 - 1 from by
          rw [Nat.zero_add]; exact Nat.mod_eq_of_lt (by omega), pow64_succ,
        scan_down_oob (by omega)] at hs
      exact absurd hs (by simp)
    · rw [show (i + (2 ^ 64 - 1)) % 2 ^ 64 = i - 1 from by
          rw [show i + (2 ^ 64 - 1) = (i - 1) + 2 ^ 64 from by omega, Nat.add_mod_right]
          exact Nat.mod_eq_of_lt (by omega)] at hs
      obtain ⟨k, hk1, hk2, hk3, hk4⟩ :=
        scan_down_some_spec hlen (i - 1) (by omega) (2 ^ 64) (by omega) _ hs
      refine ⟨List.getElem?_mem hk2, hk3, ?_⟩
      intro o2 om2 hm2 hc2
      by_contra hlen2
      push_neg at hlen2
      obtain ⟨k2, hk2get⟩ := List.getElem?_of_mem hm2
      have hv2 : o2.length ≤ 48 := (hvalid _ hm2).1
      have hlt2 : Oui.lexLt o2 (Oui.from_addr m) := by
        rcases Oui.contains_target_cases hv2 (htt ▸ hc2) with h | h
        · rw [htt]
          exact h
        · exfalso
          rcases Nat.lt_or_ge k2 i with hk | hk
          · have h5 : Oui.lexLt o2 (Oui.from_addr m) := hlo k2 hk (o2, om2) hk2get
            rw [h, htt] at h5
            simp [Oui.lexLt] at h5
          · have h5 : Oui.lexLt (Oui.from_addr m) o2 := hhi k2 hk (o2, om2) hk2get
            rw [h, htt] at h5
            simp [Oui.lexLt] at h5
      have hk2lt : k2 < i := by
        by_contra hk
        push_neg at hk
        have h5 : Oui.lexLt (Oui.from_addr m) o2 := hhi k2 hk (o2, om2) hk2get
        unfold Oui.lexLt at h5 hlt2
        omega
      have haddr : o.address ≤ o2.address :=
        Oui.contains_addr_mono (le_of_lt hlen2) hv2 hk3 hc2
      have hlto : Oui.lexLt o o2 := by
        unfold Oui.lexLt
        omega
      have hkk2 : k < k2 := by
        rcases Nat.lt_trichotomy k2 k with h | h | h
        · have h6 : Oui.lexLe o2 o := sorted_key_le hsort h hk2get hk2
          unfold Oui.lexLe at h6
          unfold Oui.lexLt at hlto
          omega
        · subst h
          rw [hk2get] at hk2
          injection hk2 with hk2e
          rw [Prod.mk.injEq] at hk2e
          obtain ⟨rfl, -⟩ := hk2e
          omega
        · exact h
      have hfalse := hk4 k2 hkk2 (by omega) _ hk2get
      exact absurd (hc2.symm.trans hfalse) (by simp)

/-- C1: for every database built by `OuiDb::parse_from_string` (with a
`Vec`-sized table) and every MAC address, if `search_entry` returns a match,
the returned prefix-and-metadata pair is an entry of the table, the prefix
contains the address's integer encoding, and no containing prefix in the
table is strictly longer (the match is most specific). -/
theorem C1_search_entry_longest_match {txt : String} {db : OuiDb} {m : MacAddress}
    {o o2 : Oui} {om om2 : OuiMeta}
    (hp : OuiDb.parse_from_string txt = .ok db)
    (hlen : db.length < 2 ^ 64)
    (hs : OuiDb.search_entry db m = some (o, om))
    (hm2 : (o2, om2) ∈ db) (hc2 : o2.contains (Oui.from_addr m) = true) :
    (o, om) ∈ db ∧ o.contains (Oui.from_addr m) = true ∧ o2.length ≤ o.length := by
  obtain ⟨h1, h2, h3⟩ := search_entry_spec (parse_ok_sorted hp) (parse_ok_valid hp) hlen hs
  exact ⟨h1, h2, h3 o2 om2 hm2 hc2⟩

/-- C1 witness at a concrete one-line database and address. -/
theorem C1_witness :
    ((⟨0x001122000000, 24⟩ : Oui), (⟨"Acme", none, none⟩ : OuiMeta))
        ∈ ([(⟨0x001122000000, 24⟩, ⟨"Acme", none, none⟩)] : OuiDb)
    ∧ Oui.contains ⟨0x001122000000, 24⟩
        (Oui.from_addr ⟨⟨0x001122334455, by norm_num⟩⟩) = true
    ∧ (⟨0x001122000000, 24⟩ : Oui).length ≤ (⟨0x001122000000, 24⟩ : Oui).length :=
  @C1_search_entry_longest_match "00:11:22\tAcme"
    [(⟨0x001122000000, 24⟩, ⟨"Acme", none, none⟩)]
    ⟨⟨0x001122334455, by norm_num⟩⟩
    ⟨0x001122000000, 24⟩ ⟨0x001122000000, 24⟩
    ⟨"Acme", none, none⟩ ⟨"Acme", none, none⟩
    (by decide) (by decide) (by decide) (by decide) (by decide)

/-- C2: queries are total and the boundary cases return the empty result:
with release-mode (wrapping) `usize` arithmetic, an insertion index of 0
(queried address below every stored entry) makes the backward scan start at
the wrapped index `2 ^ 64 - 1`, which is out of bounds for every `Vec`, so
`get` yields `None` and the query returns no match; the same happens when
the scan decrements past index 0; and on the empty database `search_entry`,
`search` and `search_prefix` all return the empty result. -/
theorem C2_queries_never_fail {db : OuiDb} {m : MacAddress} {o : Oui} {om : OuiMeta}
    (hlen : db.length < 2 ^ 64)
    (h0 : bin_search db (Oui.from_addr m) = .notFound 0)
    (hget : db[0]? = some (o, om))
    (hnc : o.contains (Oui.from_addr m) = false)
    (hl : 24 < o.length) :
    OuiDb.search_entry db m = none
    ∧ OuiDb.search db m = none
    ∧ OuiDb.search_pfx db m = none
    ∧ scan_down db (Oui.from_addr m) 0 (2 ^ 64) = none
    ∧ OuiDb.search_entry [] m = none
    ∧ OuiDb.search [] m = none
    ∧ OuiDb.search_pfx [] m = none := by
  have hmain : OuiDb.search_entry db m = none := by
    rw [search_entry_notFound h0,
      show (0 + (2 ^ 64 - 1)) % 2 ^ 64 = 2 ^ 64 - 1 from by
        rw [Nat.zero_add]; exact Nat.mod_eq_of_lt (by omega),
      pow64_succ]
    exact scan_down_oob (by omega)
  have hscan0 : scan_down db (Oui.from_addr m) 0 (2 ^ 64) = none := by
    rw [pow64_succ, scan_down_succ]
    simp only [hget]
    rw [if_neg (by simp [hnc]), if_neg (by simp [hnc]; omega)]
    rw [show (0 + (2 ^ 64 - 1)) % 2 ^ 64 = 2 ^ 64 - 1 from by
        rw [Nat.zero_add]; exact Nat.mod_eq_of_lt (by omega)]
    rw [show (2 : Nat) ^ 64 - 1 = (2 ^ 64 - 2) + 1 from by norm_num]
    exact scan_down_oob (by omega)
  have hempty : OuiDb.search_entry [] m = none := by
    have hb : bin_search ([] : OuiDb) (Oui.from_addr m) = .notFound 0 := rfl
    rw [search_entry_notFound hb, pow64_succ]
    exact scan_down_oob (by simp)
  refine ⟨hmain, ?_, ?_, hscan0, hempty, ?_, ?_⟩
  · unfold OuiDb.search
    rw [hmain]
    rfl
  · unfold OuiDb.search_pfx
    rw [hmain]
    rfl
  · unfold OuiDb.search
    rw [hempty]
    rfl
  · unfold OuiDb.search_pfx
    rw [hempty]
    rfl

/-- C2 witness: a one-entry database whose only (non-top-level) entry lies
above the queried address. -/
theorem C2_witness :
    OuiDb.search_entry [(⟨0x100000000000, 25⟩, ⟨"A", none, none⟩)] ⟨⟨0, by norm_num⟩⟩ = none
    ∧ OuiDb.search [(⟨0x100000000000, 25⟩, ⟨"A", none, none⟩)] ⟨⟨0, by norm_num⟩⟩ = none
    ∧ OuiDb.search_pfx [(⟨0x100000000000, 25⟩, ⟨"A", none, none⟩)] ⟨⟨0, by norm_num⟩⟩ = none
    ∧ scan_down [(⟨0x100000000000, 25⟩, ⟨"A", none, none⟩)]
        (Oui.from_addr ⟨⟨0, by norm_num⟩⟩) 0 (2 ^ 64) = none
    ∧ OuiDb.search_entry [] ⟨⟨0, by norm_num⟩⟩ = none
    ∧ OuiDb.search [] ⟨⟨0, by norm_num⟩⟩ = none
    ∧ OuiDb.search_pfx [] ⟨⟨0, by norm_num⟩⟩ = none :=
  @C2_queries_never_fail [(⟨0x100000000000, 25⟩, ⟨"A", none, none⟩)]
    ⟨⟨0, by norm_num⟩⟩ ⟨0x100000000000, 25⟩ ⟨"A", none, none⟩
    (by decide) (by decide) (by decide) (by decide) (by decide)
